import Mathlib

/-!
Shallow embedding of the `FileStore` storage engine of the JsonStore
repository (file `jsonfile.go`, package `jsonstore`), together with the
JSON (de)serialization boundary it relies on (`encoding/json` behaviour
for `map[string]map[string]json.RawMessage` and generic `any` values).

Go maps are embedded as association lists, Go `json.RawMessage` values as
`String`s of bytes, and the backing file as an algebraic `FileState`:
either the zero-byte file created by `NewFileStore`, or the serialized
snapshot of a content tree as written by `flushToFile`.  Run-time panics
of the Go code (out-of-range slice expressions, assignment to an entry of
a nil map, `panic(err)` in `FileStore.Json`) are made explicit through a
`Res` outcome type.
-/

set_option autoImplicit false

/-- Lookup in a Go map embedded as an association list: returns the value
stored under key `k`, if any. -/
def aget {α : Type} : List (String × α) → String → Option α
  | [], _ => none
  | (k, v) :: t, q => if k = q then some v else aget t q

/-- Go map assignment `m[k] = v`: replaces the value under `k` if present,
otherwise appends the new binding. -/
def aset {α : Type} : List (String × α) → String → α → List (String × α)
  | [], q, w => [(q, w)]
  | (k, v) :: t, q, w => if k = q then (k, w) :: t else (k, v) :: aset t q w

/-- Go `delete(m, k)`: removes the binding for `k` if present. -/
def adel {α : Type} : List (String × α) → String → List (String × α)
  | [], _ => []
  | (k, v) :: t, q => if k = q then t else (k, v) :: adel t q

/-- The JSON values produced by Go's `json.Unmarshal` into an `any`
variable, restricted to the fragment the model's parser accepts: object
member maps are already deduplicated (later members win, as in a Go map)
and numbers are the integers (Go decodes them into `float64`, which is
exact on this fragment). -/
inductive Json : Type where
  | null : Json
  | bool (b : Bool) : Json
  | num (n : Int) : Json
  | str (s : String) : Json
  | arr (elems : List Json) : Json
  | obj (members : List (String × Json)) : Json

/-- Go `encoding/json` escaping of one character inside a string literal:
quote, backslash, newline, carriage return and tab use the short escapes,
other control characters and the HTML-sensitive characters use `\u00XX`. -/
def escapeChar (c : Char) : String :=
  if c = '"' then "\\\""
  else if c = '\\' then "\\\\"
  else if c = '\n' then "\\n"
  else if c = '\r' then "\\r"
  else if c = '\t' then "\\t"
  else if c = '<' then "\\u003c"
  else if c = '>' then "\\u003e"
  else if c = '&' then "\\u0026"
  else if c.toNat < 32 then
    let d1 := Nat.digitChar (c.toNat / 16)
    let d2 := Nat.digitChar (c.toNat % 16)
    "\\u00" ++ String.mk [d1, d2]
  else String.mk [c]

/-- Go `encoding/json` serialization of a string literal. -/
def escapeString (s : String) : String :=
  "\"" ++ String.join (s.data.map escapeChar) ++ "\""

/-- Lexicographic comparison of codepoint lists. -/
def charsLtB : List Char → List Char → Bool
  | [], [] => false
  | [], _ :: _ => true
  | _ :: _, [] => false
  | a :: as, b :: bs =>
    if a.toNat < b.toNat then true
    else if b.toNat < a.toNat then false
    else charsLtB as bs

/-- String comparison used when Go sorts map keys (`sort.Strings`,
byte-wise lexicographic order, which agrees with codepoint order under
UTF-8). -/
def strLtB (a b : String) : Bool := charsLtB a.data b.data

/-- Insert a key into a lexicographically ascending list of keyed pairs. -/
def insPair {α : Type} (p : String × α) : List (String × α) → List (String × α)
  | [] => [p]
  | q :: t => if strLtB q.1 p.1 then q :: insPair p t else p :: q :: t

/-- Insertion sort of keyed pairs by ascending key, as Go's map marshaling
sorts object members. -/
def sortPairs {α : Type} : List (String × α) → List (String × α)
  | [] => []
  | p :: t => insPair p (sortPairs t)

/-- Insert a string into a lexicographically ascending list. -/
def insStr (s : String) : List String → List String
  | [] => [s]
  | q :: t => if strLtB q s then q :: insStr s t else s :: q :: t

/-- Insertion sort of strings, ascending: the model of Go `sort.Strings`. -/
def sortStrings : List String → List String
  | [] => []
  | s :: t => insStr s (sortStrings t)

/-- Join a list of already-serialized fragments with commas. -/
def joinComma : List String → String
  | [] => ""
  | [x] => x
  | x :: y :: t => x ++ "," ++ joinComma (y :: t)

mutual
/-- Go `json.Marshal` of a decoded `any` value: compact output, object
members sorted by ascending key. -/
def serializeJson : Json → String
  | .null => "null"
  | .bool true => "true"
  | .bool false => "false"
  | .num n => toString n
  | .str s => escapeString s
  | .arr elems => "[" ++ joinComma (serializeList elems) ++ "]"
  | .obj members =>
      "\x7b" ++
        joinComma ((sortPairs (serializeMembers members)).map
          (fun p => escapeString p.1 ++ ":" ++ p.2)) ++
      "\x7d"

/-- Serialize each array element. -/
def serializeList : List Json → List String
  | [] => []
  | x :: t => serializeJson x :: serializeList t

/-- Serialize each object member value, keeping its key. -/
def serializeMembers : List (String × Json) → List (String × String)
  | [] => []
  | (k, v) :: t => (k, serializeJson v) :: serializeMembers t
end

/-- Whitespace characters `encoding/json` skips between tokens. -/
def isWs (c : Char) : Bool :=
  c = ' ' || c = '\n' || c = '\t' || c = '\r'

/-- Skip leading JSON whitespace. -/
def skipWs : List Char → List Char
  | [] => []
  | c :: t => if isWs c then skipWs t else c :: t

/-- Parse the body of a JSON string literal (the opening quote already
consumed), honouring the short escapes; rejects unescaped control
characters and the escapes the model does not support (notably `\uXXXX`),
a strict subset of what Go accepts. -/
def parseStringBody : List Char → Option (String × List Char)
  | [] => none
  | c :: rest =>
    if c = '"' then some ("", rest)
    else if c = '\\' then
      match rest with
      | [] => none
      | e :: rest2 =>
        let dec : Option Char :=
          if e = '"' then some '"'
          else if e = '\\' then some '\\'
          else if e = '/' then some '/'
          else if e = 'n' then some '\n'
          else if e = 't' then some '\t'
          else if e = 'r' then some '\r'
          else if e = 'b' then some (Char.ofNat 8)
          else if e = 'f' then some (Char.ofNat 12)
          else none
        match dec with
        | none => none
        | some d =>
          match parseStringBody rest2 with
          | none => none
          | some (s, r) => some (String.mk (d :: s.data), r)
    else if c.toNat < 32 then none
    else
      match parseStringBody rest with
      | none => none
      | some (s, r) => some (String.mk (c :: s.data), r)

/-- Longest prefix of decimal digits. -/
def takeDigits : List Char → (List Char × List Char)
  | [] => ([], [])
  | c :: t =>
    if c.isDigit then
      let p := takeDigits t
      (c :: p.1, p.2)
    else ([], c :: t)

/-- Digit list to a natural number. -/
def digitsToNat : List Char → Nat → Nat
  | [], acc => acc
  | c :: t, acc => digitsToNat t (acc * 10 + (c.toNat - 48))

/-- Parse a JSON number. The model accepts only integer literals (no
fraction or exponent part), with Go's leading-zero rule; Go would decode a
wider class into `float64`, so the model's language is a strict subset. -/
def parseNumber (cs : List Char) : Option (Json × List Char) :=
  let (neg, cs1) : Bool × List Char :=
    match cs with
    | '-' :: t => (true, t)
    | _ => (false, cs)
  let (ds, rest) := takeDigits cs1
  match ds with
  | [] => none
  | d0 :: dtail =>
    if d0 = '0' && !dtail.isEmpty then none
    else
      match rest with
      | '.' :: _ => none
      | 'e' :: _ => none
      | 'E' :: _ => none
      | _ =>
        let n : Int := Int.ofNat (digitsToNat ds 0)
        some (.num (if neg then -n else n), rest)

mutual
/-- Fuel-bounded recursive-descent parser for one JSON value, the model of
`json.Unmarshal` into an `any` variable (on the fragment described at
`Json`). -/
def parseValue (fuel : Nat) (cs : List Char) : Option (Json × List Char) :=
  match fuel with
  | 0 => none
  | fuel + 1 =>
    match skipWs cs with
    | [] => none
    | c :: rest =>
      if c = 'n' then
        match rest with
        | 'u' :: 'l' :: 'l' :: r => some (.null, r)
        | _ => none
      else if c = 't' then
        match rest with
        | 'r' :: 'u' :: 'e' :: r => some (.bool true, r)
        | _ => none
      else if c = 'f' then
        match rest with
        | 'a' :: 'l' :: 's' :: 'e' :: r => some (.bool false, r)
        | _ => none
      else if c = '"' then
        match parseStringBody rest with
        | none => none
        | some (s, r) => some (.str s, r)
      else if c = '[' then
        match skipWs rest with
        | ']' :: r => some (.arr [], r)
        | r0 => parseElems fuel r0 []
      else if c = '\x7b' then
        match skipWs rest with
        | '\x7d' :: r => some (.obj [], r)
        | r0 => parseMems fuel r0 []
      else parseNumber (c :: rest)

/-- Parse the remaining elements of a non-empty JSON array. -/
def parseElems (fuel : Nat) (cs : List Char) (acc : List Json) :
    Option (Json × List Char) :=
  match fuel with
  | 0 => none
  | fuel + 1 =>
    match parseValue fuel cs with
    | none => none
    | some (v, r) =>
      match skipWs r with
      | ',' :: r2 => parseElems fuel r2 (acc ++ [v])
      | ']' :: r2 => some (.arr (acc ++ [v]), r2)
      | _ => none

/-- Parse the remaining members of a non-empty JSON object; the
accumulator is updated by Go-map assignment, so a repeated key keeps its
last value, as in `json.Unmarshal` into a map. -/
def parseMems (fuel : Nat) (cs : List Char) (acc : List (String × Json)) :
    Option (Json × List Char) :=
  match fuel with
  | 0 => none
  | fuel + 1 =>
    match skipWs cs with
    | '"' :: r =>
      match parseStringBody r with
      | none => none
      | some (k, r1) =>
        match skipWs r1 with
        | ':' :: r2 =>
          match parseValue fuel r2 with
          | none => none
          | some (v, r3) =>
            match skipWs r3 with
            | ',' :: r4 => parseMems fuel r4 (aset acc k v)
            | '\x7d' :: r4 => some (.obj (aset acc k v), r4)
            | _ => none
        | _ => none
    | _ => none
end

/-- Go `json.Unmarshal` of a whole byte string into an `any` variable:
one JSON value, possibly surrounded by whitespace, nothing else. -/
def parseJson (s : String) : Option Json :=
  match parseValue (s.length + 1) s.data with
  | none => none
  | some (j, rest) => if (skipWs rest).isEmpty then some j else none

/-- A raw message is valid when the model's decoder accepts it; this is a
strict subset of the byte strings Go's `json.Marshal` would accept as a
`json.RawMessage`, so every hypothesis phrased with `validJson` also holds
of the Go code. -/
def validJson (s : String) : Bool := (parseJson s).isSome

/-- Canonical re-serialization a raw message undergoes when the backing
file is read back: `json.Unmarshal` into `any` followed by
`json.Marshal`. -/
def canonJson (s : String) : Option String :=
  (parseJson s).map serializeJson

/-- A raw message: the bytes of a `json.RawMessage`. -/
abbrev Raw := String

/-- One collection table, `map[string]json.RawMessage`. -/
abbrev ColTable := List (String × Raw)

/-- The content tree, `map[string]map[string]json.RawMessage`. -/
abbrev CTree := List (String × ColTable)

/-- The `FileStore` struct of `jsonfile.go` (the `file` path string and the
mutex are not part of the observable state; the backing file itself is the
separate `FileState`). -/
structure FileStore where
  content : CTree
  inMemory : Bool
  manualFlush : Bool
  humanReadable : Bool
deriving DecidableEq

/-- The backing file, algebraically: either the zero-byte file created by
`NewFileStore`, or the bytes `flushToFile` writes for a content tree.
The indentation mode only changes whitespace, which `json.Unmarshal`
ignores, so it is not recorded. -/
inductive FileState : Type where
  | empty : FileState
  | written (t : CTree) : FileState
deriving DecidableEq

/-- The errors the file store surfaces: `CollectionNotFoundErr`, a failed
`os.WriteFile`, and `readFile`'s wrapped failures (empty file,
unmarshal failure). -/
inductive Err : Type where
  | collectionNotFound : Err
  | ioWrite : Err
  | readEmpty : Err
  | readUnmarshal : Err
deriving DecidableEq

/-- Outcome of running a Go operation: a normal return, or a run-time
panic (out-of-range slice, assignment to an entry in a nil map, or the
`panic(err)` in `FileStore.Json`). -/
inductive Res (α : Type) : Type where
  | ok (a : α) : Res α
  | panicked : Res α
deriving DecidableEq

/-- The flags of `NewFileStore`. -/
inductive FileStoreFlag : Type where
  | MinimizedJson : FileStoreFlag
  | ManualFlush : FileStoreFlag
deriving DecidableEq

/-- Constant `DefaultCollection` of `db.go`. -/
def DefaultCollection : String := "default"

/-- Constant `MaxListItems` of `db.go`. -/
def MaxListItems : Int := 20

/-- Constant `InMemoryDb` of `jsonfile.go`. -/
def InMemoryDb : String := "memory"

/-- Function `isFlagSet` of `jsonfile.go`. -/
def isFlagSet (l : List FileStoreFlag) (search : FileStoreFlag) : Bool :=
  l.contains search

/-- Function `NewFileStore` of `jsonfile.go`: the engine it constructs.
When the path names a real file, the file is opened with `O_CREATE`, so a
missing backing file comes into existence with zero bytes
(`FileState.empty`); an existing file keeps its prior content. -/
def NewFileStore (file : String) (flags : List FileStoreFlag) : FileStore :=
  let db : FileStore :=
    { content := []
      inMemory := true
      manualFlush := isFlagSet flags .ManualFlush
      humanReadable := !isFlagSet flags .MinimizedJson }
  if file ≠ "" ∧ file ≠ InMemoryDb then { db with inMemory := false } else db

/-- Method `colExists` of `jsonfile.go`. -/
def FileStore.colExists (f : FileStore) (name : String) : Bool :=
  (aget f.content name).isSome

/-- The mutation `Set` performs on the content tree: create the collection
table if absent, then assign `content[collection][key] = value`. -/
def treeSet (t : CTree) (c k : String) (v : Raw) : CTree :=
  let t1 := match aget t c with
    | none => aset t c []
    | some _ => t
  match aget t1 c with
  | some m => aset t1 c (aset m k v)
  | none => t1

/-- Read `content[collection][key]`; `none` is Go's nil `RawMessage`. -/
def treeGet (t : CTree) (c k : String) : Option Raw :=
  (aget t c).bind fun m => aget m k

/-- The mutation `Delete` performs: `delete(content[collection], key)`. -/
def treeDel (t : CTree) (c k : String) : CTree :=
  match aget t c with
  | some m => aset t c (adel m k)
  | none => t

/-- Decode every raw message of one collection table, as `json.Unmarshal`
does for the inner `map[string]any` of the file. -/
def decodeTable : ColTable → Option (List (String × Json))
  | [] => some []
  | (k, v) :: t =>
    match parseJson v, decodeTable t with
    | some j, some r => some ((k, j) :: r)
    | _, _ => none

/-- Decode every raw message of a content tree, as `json.Unmarshal` of the
whole backing file into `map[string]map[string]any` does. -/
def decodeTree : CTree → Option (List (String × List (String × Json)))
  | [] => some []
  | (c, m) :: t =>
    match decodeTable m, decodeTree t with
    | some dm, some r => some ((c, dm) :: r)
    | _, _ => none

/-- A tree every raw message of which the model's decoder accepts; on such
trees `FileStore.Json` (hence `flushToFile`) cannot panic. -/
def treeValid (t : CTree) : Bool := (decodeTree t).isSome

/-- The inner loop of `readFile`'s merge: assign
`f.content[collection][k] = json.Marshal(v)` for every key of one decoded
file collection. -/
def foldSet (mem : CTree) (c : String) (kvs : List (String × Json)) : CTree :=
  kvs.foldl (fun m p => treeSet m c p.1 (serializeJson p.2)) mem

/-- The outer merge loop of `readFile`. Assigning a key into a collection
absent from the in-memory tree writes into a nil map, which panics; a file
collection with no keys never runs the inner loop, so it merges
silently. -/
def mergeTree (mem : CTree) : List (String × List (String × Json)) → Res CTree
  | [] => .ok mem
  | (c, kvs) :: rest =>
    match aget mem c with
    | none => if kvs.isEmpty then mergeTree mem rest else .panicked
    | some _ => mergeTree (foldSet mem c kvs) rest

/-- Method `readFile` of `jsonfile.go`: fail on a zero-byte file, fail if
the bytes do not unmarshal, otherwise merge the decoded data over the
in-memory tree (returning the updated tree; the panic of the merge loop is
propagated). -/
def FileStore.readFile (f : FileStore) (fs : FileState) : Res (Except Err CTree) :=
  match fs with
  | .empty => .ok (.error .readEmpty)
  | .written t =>
    match decodeTree t with
    | none => .ok (.error .readUnmarshal)
    | some tj =>
      match mergeTree f.content tj with
      | .panicked => .panicked
      | .ok mem => .ok (.ok mem)

/-- Method `flushToFile` of `jsonfile.go`: `FileStore.Json` panics when
some stored raw message does not marshal; otherwise `os.WriteFile` either
replaces the file with the serialized tree or fails, surfacing the error
(`wfail` is the environment's verdict on that write). -/
def FileStore.flushToFile (f : FileStore) (fs : FileState) (wfail : Bool) :
    Res (FileState × Option Err) :=
  if treeValid f.content then
    if wfail then .ok (fs, some .ioWrite) else .ok (.written f.content, none)
  else .panicked

/-- Method `Flush` of `jsonfile.go`: writes the tree only when the store
is file-backed and `ManualFlush` is NOT set; otherwise returns nil doing
nothing. -/
def FileStore.Flush (f : FileStore) (fs : FileState) (wfail : Bool) :
    Res (FileState × Option Err) :=
  if !f.inMemory && !f.manualFlush then f.flushToFile fs wfail
  else .ok (fs, none)

/-- Method `Set` of `jsonfile.go`: mutate the in-memory tree, then, in the
file-backed auto-flush configuration only, rewrite the whole file. -/
def FileStore.Set (f : FileStore) (fs : FileState) (wfail : Bool)
    (collection key : String) (value : Raw) :
    Res (FileStore × FileState × Option Err) :=
  let f1 : FileStore := { f with content := treeSet f.content collection key value }
  if !f1.inMemory && !f1.manualFlush then
    match f1.flushToFile fs wfail with
    | .panicked => .panicked
    | .ok (fs1, e) => .ok (f1, fs1, e)
  else .ok (f1, fs, none)

/-- Method `Get` of `jsonfile.go`: the collection check runs first,
against the in-memory tree; then, when file-backed, the whole file is
reloaded (merged over memory) before the value — nil for an absent key —
is read out. -/
def FileStore.Get (f : FileStore) (fs : FileState) (collection key : String) :
    Res (FileStore × Except Err (Option Raw)) :=
  if !f.colExists collection then .ok (f, .error .collectionNotFound)
  else if f.inMemory then .ok (f, .ok (treeGet f.content collection key))
  else
    match f.readFile fs with
    | .panicked => .panicked
    | .ok (.error e) => .ok (f, .error e)
    | .ok (.ok mem) => .ok ({ f with content := mem }, .ok (treeGet mem collection key))

/-- Method `Delete` of `jsonfile.go`: `CollectionNotFoundErr` when the
collection is absent; otherwise the key is removed if present, and the
returned flag reports whether a removal occurred; the file-backed
auto-flush configuration then rewrites the whole file, pairing the flag
with the write's error. -/
def FileStore.Delete (f : FileStore) (fs : FileState) (wfail : Bool)
    (collection key : String) :
    Res (FileStore × FileState × Bool × Option Err) :=
  if !f.colExists collection then .ok (f, fs, false, some .collectionNotFound)
  else
    let present := (treeGet f.content collection key).isSome
    let f1 : FileStore :=
      if present then { f with content := treeDel f.content collection key } else f
    if !f1.inMemory && !f1.manualFlush then
      match f1.flushToFile fs wfail with
      | .panicked => .panicked
      | .ok (fs1, e) => .ok (f1, fs1, present, e)
    else .ok (f1, fs, present, none)

/-- The `limit` clamp of `List`: only a limit of exactly zero, or one
above `MaxListItems`, is replaced by `MaxListItems`; a negative limit
passes through. -/
def clampLimit (limit : Int) : Int :=
  if limit = 0 || limit > MaxListItems then MaxListItems else limit

/-- The `page` clamp of `List`: pages below one become one. -/
def clampPage (page : Int) : Int :=
  if page < 1 then 1 else page

/-- Method `List` of `jsonfile.go` (named `ListOp` here because `List` is
Lean's list type): empty collection name falls back to
`DefaultCollection`; `limit` is clamped only when it is zero or above
`MaxListItems`, `page` below one is clamped to one; the keys are sorted
ascending and the slice `keys[offset:end]` is taken, which panics whenever
the Go slice bounds `0 ≤ offset ≤ end ≤ len(keys)` fail. -/
def FileStore.ListOp (f : FileStore) (collection : String) (limit page : Int) :
    Res (Except Err (List (String × Raw) × Int)) :=
  let collection := if collection = "" then DefaultCollection else collection
  match aget f.content collection with
  | none => .ok (.error .collectionNotFound)
  | some m =>
    let collen : Int := m.length
    let limit := clampLimit limit
    let page := clampPage page
    let offset := (page - 1) * limit
    let keys := sortStrings (m.map Prod.fst)
    let e0 := offset + limit
    let e1 := if e0 > (keys.length : Int) then (keys.length : Int) else e0
    if 0 ≤ offset ∧ offset ≤ e1 ∧ e1 ≤ (keys.length : Int) then
      .ok (.ok (((keys.drop offset.toNat).take (e1 - offset).toNat).map
        (fun k0 => (k0, (aget m k0).getD "")), collen))
    else .panicked

/-- A well-formed content tree: no duplicate collection names and no
duplicate keys inside a collection, the invariant Go maps provide for
free. -/
def WFTree (t : CTree) : Prop :=
  (t.map Prod.fst).Nodup ∧ ∀ p ∈ t, (p.2.map Prod.fst).Nodup

instance (t : CTree) : Decidable (WFTree t) := by
  unfold WFTree
  infer_instance

/-- An in-memory engine, `NewFileStore(InMemoryDb)`. -/
def memStore : FileStore := NewFileStore InMemoryDb []

/-- A file-backed engine constructed with the `ManualFlush` flag. -/
def manualStore : FileStore := NewFileStore "data.json" [.ManualFlush]

/-- A file-backed auto-flush engine on a fresh (zero-byte) file. -/
def freshAuto : FileStore := NewFileStore "data.json" []

/-- An in-memory engine whose collection `c` holds the single key `a`. -/
def c1store : FileStore :=
  { memStore with content := [("c", [("a", "true")])] }

/-- A file-backed auto-flush engine whose collection `c` holds key `k`
with value `1`, in sync with its backing file `c8file`. -/
def c8store : FileStore :=
  { content := [("c", [("k", "1")])]
    inMemory := false
    manualFlush := false
    humanReadable := true }

/-- The backing file matching `c8store`. -/
def c8file : FileState := .written [("c", [("k", "1")])]

theorem aget_aset_self {α : Type} (l : List (String × α)) (k : String) (v : α) :
    aget (aset l k v) k = some v := by
  induction l with
  | nil => simp [aget, aset]
  | cons h t ih =>
    obtain ⟨hk, hv⟩ := h
    by_cases hkq : hk = k
    · simp [aget, aset, hkq]
    · simp [aget, aset, hkq, ih]

theorem aget_aset_ne {α : Type} (l : List (String × α)) (k q : String) (v : α)
    (h : k ≠ q) : aget (aset l k v) q = aget l q := by
  induction l with
  | nil => simp [aget, aset, h]
  | cons hd t ih =>
    obtain ⟨hk, hv⟩ := hd
    by_cases hkk : hk = k
    · subst hkk
      simp [aget, aset, h]
    · simp [aget, aset, hkk, ih]

theorem aget_adel_self {α : Type} (l : List (String × α)) (k : String)
    (hnd : (l.map Prod.fst).Nodup) : aget (adel l k) k = none := by
  induction l with
  | nil => simp [aget, adel]
  | cons hd t ih =>
    obtain ⟨hk, hv⟩ := hd
    simp only [List.map_cons, List.nodup_cons] at hnd
    by_cases hkq : hk = k
    · subst hkq
      cases hag : aget t hk with
      | none => simp [adel, hag]
      | some w =>
        exfalso
        apply hnd.1
        clear ih hnd
        induction t with
        | nil => simp [aget] at hag
        | cons hd2 t2 ih2 =>
          obtain ⟨k2, v2⟩ := hd2
          simp only [aget] at hag
          by_cases h2 : k2 = hk
          · simp [h2]
          · simp only [h2, if_false] at hag
            simp [ih2 hag]
    · simp [aget, adel, hkq, ih hnd.2]

theorem aget_adel_ne {α : Type} (l : List (String × α)) (k q : String)
    (h : k ≠ q) : aget (adel l k) q = aget l q := by
  induction l with
  | nil => simp [aget, adel]
  | cons hd t ih =>
    obtain ⟨hk, hv⟩ := hd
    by_cases hkk : hk = k
    · subst hkk
      simp [aget, adel, h]
    · simp [aget, adel, hkk, ih]

theorem length_aset {α : Type} (l : List (String × α)) (k : String) (v : α)
    (h : (aget l k).isSome) : (aset l k v).length = l.length := by
  induction l with
  | nil => simp [aget] at h
  | cons hd t ih =>
    obtain ⟨hk, hv⟩ := hd
    by_cases hkq : hk = k
    · simp [aset, hkq]
    · simp only [aget, hkq, if_false] at h
      simp [aset, hkq, ih h]

theorem length_insStr (s : String) (l : List String) :
    (insStr s l).length = l.length + 1 := by
  induction l with
  | nil => rfl
  | cons h t ih =>
    by_cases hc : strLtB h s
    · simp [insStr, hc, ih]
    · simp [insStr, hc]

theorem length_sortStrings (l : List String) :
    (sortStrings l).length = l.length := by
  induction l with
  | nil => rfl
  | cons h t ih => simp [sortStrings, length_insStr, ih]

example : parseJson "null" = some .null := rfl
example : canonJson "true" = some "true" := rfl
example : canonJson "[1, 2]" = some "[1,2]" := rfl
example : canonJson " \"a\" " = some "\"a\"" := rfl
example : canonJson "-07" = none := rfl
example : canonJson "12" = some "12" := rfl

theorem aget_aset_isSome {α : Type} (l : List (String × α)) (k q : String) (v : α)
    (h : (aget l q).isSome) : (aget (aset l k v) q).isSome := by
  by_cases hkq : k = q
  · subst hkq
    simp [aget_aset_self]
  · simpa [aget_aset_ne l k q v hkq]

theorem treeSet_eq_none (t : CTree) (c k : String) (v : Raw)
    (h : aget t c = none) : treeSet t c k v = aset (aset t c []) c [(k, v)] := by
  unfold treeSet
  simp [h, aget_aset_self, aset]

theorem treeSet_eq_some (t : CTree) (c k : String) (v : Raw) (m : ColTable)
    (h : aget t c = some m) : treeSet t c k v = aset t c (aset m k v) := by
  unfold treeSet
  simp [h]

theorem treeGet_treeSet_self (t : CTree) (c k : String) (v : Raw) :
    treeGet (treeSet t c k v) c k = some v := by
  cases h : aget t c with
  | none =>
    rw [treeSet_eq_none t c k v h]
    simp [treeGet, aget_aset_self, aget]
  | some m =>
    rw [treeSet_eq_some t c k v m h]
    simp [treeGet, aget_aset_self]

theorem treeGet_treeSet_col_ne (t : CTree) (c k c2 k2 : String) (v : Raw)
    (hne : c2 ≠ c) : treeGet (treeSet t c k v) c2 k2 = treeGet t c2 k2 := by
  have hcc : c ≠ c2 := fun he => hne he.symm
  cases h : aget t c with
  | none =>
    rw [treeSet_eq_none t c k v h]
    simp [treeGet, aget_aset_ne _ _ _ _ hcc]
  | some m =>
    rw [treeSet_eq_some t c k v m h]
    simp [treeGet, aget_aset_ne _ _ _ _ hcc]

theorem treeGet_treeSet_key_ne (t : CTree) (c k k2 : String) (v : Raw)
    (hne : k2 ≠ k) : treeGet (treeSet t c k v) c k2 = treeGet t c k2 := by
  have hkk : k ≠ k2 := fun he => hne he.symm
  cases h : aget t c with
  | none =>
    rw [treeSet_eq_none t c k v h]
    simp [treeGet, aget_aset_self, aget_aset_ne _ _ _ _ hkk, aget, h,
      if_neg hkk]
  | some m =>
    rw [treeSet_eq_some t c k v m h]
    simp [treeGet, aget_aset_self, aget_aset_ne _ _ _ _ hkk, h]

theorem aget_treeSet_isSome (t : CTree) (c k c2 : String) (v : Raw)
    (h : (aget t c2).isSome) : (aget (treeSet t c k v) c2).isSome := by
  cases hc : aget t c with
  | none =>
    rw [treeSet_eq_none t c k v hc]
    exact aget_aset_isSome _ _ _ _ (aget_aset_isSome _ _ _ _ h)
  | some m =>
    rw [treeSet_eq_some t c k v m hc]
    exact aget_aset_isSome _ _ _ _ h

theorem foldSet_cons (mem : CTree) (c : String) (p : String × Json)
    (rest : List (String × Json)) :
    foldSet mem c (p :: rest) = foldSet (treeSet mem c p.1 (serializeJson p.2)) c rest := rfl

theorem aget_foldSet_isSome (kvs : List (String × Json)) (mem : CTree)
    (c c2 : String) (h : (aget mem c2).isSome) :
    (aget (foldSet mem c kvs) c2).isSome := by
  induction kvs generalizing mem with
  | nil => simpa [foldSet]
  | cons p rest ih =>
    rw [foldSet_cons]
    exact ih _ (aget_treeSet_isSome _ _ _ _ _ h)

theorem treeGet_foldSet_col_ne (kvs : List (String × Json)) (mem : CTree)
    (c c2 k2 : String) (hne : c2 ≠ c) :
    treeGet (foldSet mem c kvs) c2 k2 = treeGet mem c2 k2 := by
  induction kvs generalizing mem with
  | nil => simp [foldSet]
  | cons p rest ih =>
    rw [foldSet_cons, ih, treeGet_treeSet_col_ne _ _ _ _ _ _ hne]

theorem treeGet_foldSet_key_notmem (kvs : List (String × Json)) (mem : CTree)
    (c k : String) (hk : k ∉ kvs.map Prod.fst) :
    treeGet (foldSet mem c kvs) c k = treeGet mem c k := by
  induction kvs generalizing mem with
  | nil => simp [foldSet]
  | cons p rest ih =>
    simp only [List.map_cons, List.mem_cons, not_or] at hk
    rw [foldSet_cons, ih _ hk.2, treeGet_treeSet_key_ne _ _ _ _ _ hk.1]

theorem treeGet_foldSet_self (kvs : List (String × Json)) (mem : CTree)
    (c k : String) (j : Json) (hnd : (kvs.map Prod.fst).Nodup)
    (hk : aget kvs k = some j) :
    treeGet (foldSet mem c kvs) c k = some (serializeJson j) := by
  induction kvs generalizing mem with
  | nil => simp [aget] at hk
  | cons p rest ih =>
    obtain ⟨k1, j1⟩ := p
    simp only [List.map_cons, List.nodup_cons] at hnd
    rw [foldSet_cons]
    by_cases hkk : k1 = k
    · subst hkk
      simp only [aget, if_true, Option.some.injEq] at hk
      subst hk
      rw [treeGet_foldSet_key_notmem _ _ _ _ hnd.1]
      exact treeGet_treeSet_self mem c k1 (serializeJson j1)
    · simp only [aget, hkk, if_false] at hk
      exact ih _ hnd.2 hk

theorem mergeTree_ok_of (td : List (String × List (String × Json))) (mem : CTree)
    (hcols : ∀ p ∈ td, p.2 ≠ [] → (aget mem p.1).isSome) :
    ∃ mem2, mergeTree mem td = .ok mem2 := by
  induction td generalizing mem with
  | nil => exact ⟨mem, rfl⟩
  | cons p rest ih =>
    obtain ⟨c1, kvs1⟩ := p
    cases hmc : aget mem c1 with
    | none =>
      cases kvs1 with
      | nil =>
        have := ih mem (fun q hq hne => hcols q (List.mem_cons_of_mem _ hq) hne)
        simpa [mergeTree, hmc] using this
      | cons q qs =>
        exfalso
        have := hcols (c1, q :: qs) (List.mem_cons_self _ _) (by simp)
        rw [hmc] at this
        simp at this
    | some m =>
      have hcols2 : ∀ q ∈ rest, q.2 ≠ [] → (aget (foldSet mem c1 kvs1) q.1).isSome :=
        fun q hq hne =>
          aget_foldSet_isSome _ _ _ _ (hcols q (List.mem_cons_of_mem _ hq) hne)
      have := ih (foldSet mem c1 kvs1) hcols2
      simpa [mergeTree, hmc] using this

theorem mergeTree_get_notmem (td : List (String × List (String × Json)))
    (mem mem2 : CTree) (c k : String)
    (hok : mergeTree mem td = .ok mem2) (hc : c ∉ td.map Prod.fst) :
    treeGet mem2 c k = treeGet mem c k := by
  induction td generalizing mem with
  | nil =>
    simp only [mergeTree, Res.ok.injEq] at hok
    rw [hok]
  | cons p rest ih =>
    obtain ⟨c1, kvs1⟩ := p
    simp only [List.map_cons, List.mem_cons, not_or] at hc
    cases hmc : aget mem c1 with
    | none =>
      cases kvs1 with
      | nil =>
        simp only [mergeTree, hmc, List.isEmpty_nil, if_true] at hok
        exact ih mem hok hc.2
      | cons q qs =>
        simp [mergeTree, hmc] at hok
    | some m =>
      simp only [mergeTree, hmc] at hok
      rw [ih _ hok hc.2, treeGet_foldSet_col_ne _ _ _ _ _ hc.1]

theorem mergeTree_get_of_aget (td : List (String × List (String × Json)))
    (mem : CTree) (c k : String) (kvs : List (String × Json)) (j : Json)
    (hnd : (td.map Prod.fst).Nodup)
    (hcols : ∀ p ∈ td, p.2 ≠ [] → (aget mem p.1).isSome)
    (hc : aget td c = some kvs) (hknd : (kvs.map Prod.fst).Nodup)
    (hk : aget kvs k = some j) :
    ∃ mem2, mergeTree mem td = .ok mem2 ∧
      treeGet mem2 c k = some (serializeJson j) := by
  induction td generalizing mem with
  | nil => simp [aget] at hc
  | cons p rest ih =>
    obtain ⟨c1, kvs1⟩ := p
    simp only [List.map_cons, List.nodup_cons] at hnd
    by_cases hcc : c1 = c
    · subst hcc
      simp only [aget, if_true, Option.some.injEq] at hc
      subst hc
      have hkne : kvs1 ≠ [] := by
        intro he
        subst he
        simp [aget] at hk
      have hsome := hcols (c1, kvs1) (List.mem_cons_self _ _) hkne
      cases hmc : aget mem c1 with
      | none =>
        rw [hmc] at hsome
        simp at hsome
      | some m =>
        obtain ⟨mem2, hmerge⟩ := mergeTree_ok_of rest (foldSet mem c1 kvs1)
          (fun q hq hne =>
            aget_foldSet_isSome _ _ _ _ (hcols q (List.mem_cons_of_mem _ hq) hne))
        refine ⟨mem2, by simpa [mergeTree, hmc] using hmerge, ?_⟩
        rw [mergeTree_get_notmem rest _ _ _ _ hmerge hnd.1]
        exact treeGet_foldSet_self _ _ _ _ _ hknd hk
    · simp only [aget, hcc, if_false] at hc
      cases hmc : aget mem c1 with
      | none =>
        cases kvs1 with
        | nil =>
          obtain ⟨mem2, hmerge, hget⟩ := ih mem hnd.2
            (fun q hq hne => hcols q (List.mem_cons_of_mem _ hq) hne) hc
          exact ⟨mem2, by simpa [mergeTree, hmc] using hmerge, hget⟩
        | cons q qs =>
          exfalso
          have := hcols (c1, q :: qs) (List.mem_cons_self _ _) (by simp)
          rw [hmc] at this
          simp at this
      | some m =>
        obtain ⟨mem2, hmerge, hget⟩ := ih (foldSet mem c1 kvs1) hnd.2
          (fun q hq hne =>
            aget_foldSet_isSome _ _ _ _ (hcols q (List.mem_cons_of_mem _ hq) hne)) hc
        exact ⟨mem2, by simpa [mergeTree, hmc] using hmerge, hget⟩

theorem decodeTable_keys (m : ColTable) (dm : List (String × Json))
    (h : decodeTable m = some dm) : dm.map Prod.fst = m.map Prod.fst := by
  induction m generalizing dm with
  | nil =>
    simp only [decodeTable, Option.some.injEq] at h
    simp [← h]
  | cons p rest ih =>
    obtain ⟨k, v⟩ := p
    simp only [decodeTable] at h
    cases hp : parseJson v with
    | none => rw [hp] at h; simp at h
    | some j =>
      rw [hp] at h
      cases hr : decodeTable rest with
      | none => rw [hr] at h; simp at h
      | some dr =>
        rw [hr] at h
        simp only [Option.some.injEq] at h
        subst h
        simp [ih dr hr]

theorem decodeTable_aget (m : ColTable) (dm : List (String × Json)) (k : String)
    (r : Raw) (h : decodeTable m = some dm) (hk : aget m k = some r) :
    ∃ j, parseJson r = some j ∧ aget dm k = some j := by
  induction m generalizing dm with
  | nil => simp [aget] at hk
  | cons p rest ih =>
    obtain ⟨k1, v1⟩ := p
    simp only [decodeTable] at h
    cases hp : parseJson v1 with
    | none => rw [hp] at h; simp at h
    | some j1 =>
      rw [hp] at h
      cases hr : decodeTable rest with
      | none => rw [hr] at h; simp at h
      | some dr =>
        rw [hr] at h
        simp only [Option.some.injEq] at h
        subst h
        by_cases hkk : k1 = k
        · subst hkk
          simp only [aget, if_true, Option.some.injEq] at hk
          subst hk
          exact ⟨j1, hp, by simp [aget]⟩
        · simp only [aget, hkk, if_false] at hk
          obtain ⟨j, hj1, hj2⟩ := ih dr hr hk
          exact ⟨j, hj1, by simpa [aget, hkk] using hj2⟩

theorem decodeTree_keys (t : CTree) (td : List (String × List (String × Json)))
    (h : decodeTree t = some td) : td.map Prod.fst = t.map Prod.fst := by
  induction t generalizing td with
  | nil =>
    simp only [decodeTree, Option.some.injEq] at h
    simp [← h]
  | cons p rest ih =>
    obtain ⟨c, m⟩ := p
    simp only [decodeTree] at h
    cases hp : decodeTable m with
    | none => rw [hp] at h; simp at h
    | some dm =>
      rw [hp] at h
      cases hr : decodeTree rest with
      | none => rw [hr] at h; simp at h
      | some dr =>
        rw [hr] at h
        simp only [Option.some.injEq] at h
        subst h
        simp [ih dr hr]

theorem decodeTree_aget (t : CTree) (td : List (String × List (String × Json)))
    (c : String) (m : ColTable)
    (h : decodeTree t = some td) (hc : aget t c = some m) :
    ∃ dm, decodeTable m = some dm ∧ aget td c = some dm := by
  induction t generalizing td with
  | nil => simp [aget] at hc
  | cons p rest ih =>
    obtain ⟨c1, m1⟩ := p
    simp only [decodeTree] at h
    cases hp : decodeTable m1 with
    | none => rw [hp] at h; simp at h
    | some dm1 =>
      rw [hp] at h
      cases hr : decodeTree rest with
      | none => rw [hr] at h; simp at h
      | some dr =>
        rw [hr] at h
        simp only [Option.some.injEq] at h
        subst h
        by_cases hcc : c1 = c
        · subst hcc
          simp only [aget, if_true, Option.some.injEq] at hc
          subst hc
          exact ⟨dm1, hp, by simp [aget]⟩
        · simp only [aget, hcc, if_false] at hc
          obtain ⟨dm, hd1, hd2⟩ := ih dr hr hc
          exact ⟨dm, hd1, by simpa [aget, hcc] using hd2⟩

theorem map_fst_aset {α : Type} (l : List (String × α)) (k : String) (v : α) :
    (aset l k v).map Prod.fst =
      if (aget l k).isSome then l.map Prod.fst else l.map Prod.fst ++ [k] := by
  induction l with
  | nil => simp [aset, aget]
  | cons p rest ih =>
    obtain ⟨k1, v1⟩ := p
    by_cases hkk : k1 = k
    · simp [aset, aget, hkk]
    · simp only [aset, aget, hkk, if_false, List.map_cons, ih]
      by_cases hs : (aget rest k).isSome
      · simp [hs]
      · simp [hs]

theorem nodup_aset_fst {α : Type} (l : List (String × α)) (k : String) (v : α)
    (h : (l.map Prod.fst).Nodup) : ((aset l k v).map Prod.fst).Nodup := by
  rw [map_fst_aset]
  by_cases hs : (aget l k).isSome
  · simpa [hs]
  · have hk : k ∉ l.map Prod.fst := by
      intro hmem
      apply hs
      clear hs h
      induction l with
      | nil => simp at hmem
      | cons p rest ih =>
        obtain ⟨k1, v1⟩ := p
        simp only [List.map_cons, List.mem_cons] at hmem
        by_cases hkk : k1 = k
        · simp [aget, hkk]
        · simp only [aget, hkk, if_false]
          exact ih (hmem.resolve_left (fun he => hkk he.symm))
    simp only [hs, if_false]
    exact h.append (List.nodup_singleton k)
      (fun a ha hb => hk ((List.mem_singleton.mp hb) ▸ ha))

theorem aget_isSome_of_mem_fst {α : Type} (l : List (String × α)) (k : String)
    (h : k ∈ l.map Prod.fst) : (aget l k).isSome := by
  induction l with
  | nil => simp at h
  | cons p rest ih =>
    obtain ⟨k1, v1⟩ := p
    simp only [List.map_cons, List.mem_cons] at h
    by_cases hkk : k1 = k
    · simp [aget, hkk]
    · simp only [aget, hkk, if_false]
      exact ih (h.resolve_left (fun he => hkk he.symm))

theorem mem_aset {α : Type} (l : List (String × α)) (k : String) (v : α)
    (p : String × α) (h : p ∈ aset l k v) : p ∈ l ∨ p = (k, v) := by
  induction l with
  | nil => simpa [aset] using h
  | cons q rest ih =>
    obtain ⟨k1, v1⟩ := q
    by_cases hkk : k1 = k
    · subst hkk
      simp only [aset, if_true, List.mem_cons] at h
      rcases h with h | h
      · right; rw [h]
      · left; exact List.mem_cons_of_mem _ h
    · simp only [aset, hkk, if_false, List.mem_cons] at h
      rcases h with h | h
      · left; rw [h]; exact List.mem_cons_self _ _
      · rcases ih h with h2 | h2
        · left; exact List.mem_cons_of_mem _ h2
        · right; exact h2

theorem WFTree_aset_table (t : CTree) (c : String) (m2 : ColTable)
    (hwf : WFTree t) (hm2 : (m2.map Prod.fst).Nodup) : WFTree (aset t c m2) := by
  refine ⟨nodup_aset_fst _ _ _ hwf.1, ?_⟩
  intro p hp
  rcases mem_aset _ _ _ _ hp with h | h
  · exact hwf.2 p h
  · rw [h]
    exact hm2

theorem WFTree_treeSet (t : CTree) (c k : String) (v : Raw)
    (hwf : WFTree t) : WFTree (treeSet t c k v) := by
  cases hc : aget t c with
  | none =>
    rw [treeSet_eq_none t c k v hc]
    exact WFTree_aset_table _ _ _ (WFTree_aset_table _ _ _ hwf (by simp)) (by simp)
  | some m =>
    rw [treeSet_eq_some t c k v m hc]
    have hm : (m.map Prod.fst).Nodup := by
      have : (c, m) ∈ t := by
        clear hwf
        induction t with
        | nil => simp [aget] at hc
        | cons q rest ih =>
          obtain ⟨k1, v1⟩ := q
          by_cases hkk : k1 = c
          · subst hkk
            simp only [aget, if_true, Option.some.injEq] at hc
            subst hc
            exact List.mem_cons_self _ _
          · simp only [aget, hkk, if_false] at hc
            exact List.mem_cons_of_mem _ (ih hc)
      exact hwf.2 (c, m) this
    exact WFTree_aset_table _ _ _ hwf (nodup_aset_fst _ _ _ hm)

theorem aget_mem {α : Type} (l : List (String × α)) (k : String) (v : α)
    (h : aget l k = some v) : (k, v) ∈ l := by
  induction l with
  | nil => simp [aget] at h
  | cons q rest ih =>
    obtain ⟨k1, v1⟩ := q
    by_cases hkk : k1 = k
    · subst hkk
      simp only [aget, if_true, Option.some.injEq] at h
      subst h
      exact List.mem_cons_self _ _
    · simp only [aget, hkk, if_false] at h
      exact List.mem_cons_of_mem _ (ih h)

theorem map_fst_adel_sublist {α : Type} (l : List (String × α)) (k : String) :
    ((adel l k).map Prod.fst).Sublist (l.map Prod.fst) := by
  induction l with
  | nil => simp [adel]
  | cons q rest ih =>
    obtain ⟨k1, v1⟩ := q
    by_cases hkk : k1 = k
    · simp only [adel, hkk, if_true, List.map_cons]
      exact (List.Sublist.refl _).cons _
    · simp only [adel, hkk, if_false, List.map_cons]
      exact ih.cons₂ _

theorem WFTree_treeDel (t : CTree) (c k : String) (hwf : WFTree t) :
    WFTree (treeDel t c k) := by
  unfold treeDel
  cases hc : aget t c with
  | none => exact hwf
  | some m =>
    have hm : (m.map Prod.fst).Nodup := hwf.2 (c, m) (aget_mem _ _ _ hc)
    exact WFTree_aset_table _ _ _ hwf (hm.sublist (map_fst_adel_sublist m k))

theorem decodeTable_adel_isSome (m : ColTable) (k : String)
    (h : (decodeTable m).isSome) : (decodeTable (adel m k)).isSome := by
  induction m with
  | nil => simp [adel, decodeTable]
  | cons p rest ih =>
    obtain ⟨k1, v1⟩ := p
    simp only [decodeTable] at h
    cases hp : parseJson v1 with
    | none => rw [hp] at h; simp at h
    | some j1 =>
      rw [hp] at h
      cases hr : decodeTable rest with
      | none => rw [hr] at h; simp at h
      | some dr =>
        by_cases hkk : k1 = k
        · simpa [adel, hkk, hr]
        · have := ih (by simp [hr])
          simp only [adel, hkk, if_false, decodeTable, hp]
          cases hd : decodeTable (adel rest k) with
          | none => rw [hd] at this; simp at this
          | some dd => simp

theorem decodeTree_table_isSome (t : CTree) (c : String) (m : ColTable)
    (hv : (decodeTree t).isSome) (hc : aget t c = some m) :
    (decodeTable m).isSome := by
  obtain ⟨td, htd⟩ := Option.isSome_iff_exists.mp hv
  obtain ⟨dm, hdm, _⟩ := decodeTree_aget t td c m htd hc
  simp [hdm]

theorem decodeTable_aset_isSome (m : ColTable) (k : String) (v : Raw)
    (hm : (decodeTable m).isSome) (hv : (parseJson v).isSome) :
    (decodeTable (aset m k v)).isSome := by
  obtain ⟨j, hj⟩ := Option.isSome_iff_exists.mp hv
  induction m with
  | nil => simp [aset, decodeTable, hj]
  | cons p rest ih =>
    obtain ⟨k1, v1⟩ := p
    simp only [decodeTable] at hm
    cases hp : parseJson v1 with
    | none => rw [hp] at hm; simp at hm
    | some j1 =>
      rw [hp] at hm
      cases hr : decodeTable rest with
      | none => rw [hr] at hm; simp at hm
      | some dr =>
        by_cases hkk : k1 = k
        · simp [aset, hkk, decodeTable, hj, hr]
        · have := ih (by simp [hr])
          obtain ⟨dd, hdd⟩ := Option.isSome_iff_exists.mp this
          simp [aset, hkk, decodeTable, hp, hdd]

theorem decodeTree_aset_isSome (t : CTree) (c : String) (m2 : ColTable)
    (ht : (decodeTree t).isSome) (hm2 : (decodeTable m2).isSome) :
    (decodeTree (aset t c m2)).isSome := by
  obtain ⟨dm2, hdm2⟩ := Option.isSome_iff_exists.mp hm2
  induction t with
  | nil => simp [aset, decodeTree, hdm2]
  | cons p rest ih =>
    obtain ⟨c1, m1⟩ := p
    simp only [decodeTree] at ht
    cases hp : decodeTable m1 with
    | none => rw [hp] at ht; simp at ht
    | some dm1 =>
      rw [hp] at ht
      cases hr : decodeTree rest with
      | none => rw [hr] at ht; simp at ht
      | some dr =>
        by_cases hcc : c1 = c
        · simp [aset, hcc, decodeTree, hdm2, hr]
        · have := ih (by simp [hr])
          obtain ⟨dd, hdd⟩ := Option.isSome_iff_exists.mp this
          simp [aset, hcc, decodeTree, hp, hdd]

theorem treeValid_treeSet (t : CTree) (c k : String) (v : Raw)
    (ht : treeValid t) (hv : validJson v) : treeValid (treeSet t c k v) := by
  unfold treeValid at ht ⊢
  unfold validJson at hv
  cases hc : aget t c with
  | none =>
    rw [treeSet_eq_none t c k v hc]
    refine decodeTree_aset_isSome _ _ _ ?_ ?_
    · exact decodeTree_aset_isSome _ _ _ ht (by simp [decodeTable])
    · obtain ⟨j, hj⟩ := Option.isSome_iff_exists.mp hv
      simp [decodeTable, hj]
  | some m =>
    rw [treeSet_eq_some t c k v m hc]
    exact decodeTree_aset_isSome _ _ _ ht
      (decodeTable_aset_isSome _ _ _ (decodeTree_table_isSome t c m ht hc) hv)

theorem treeValid_treeDel (t : CTree) (c k : String) (ht : treeValid t) :
    treeValid (treeDel t c k) := by
  unfold treeValid at ht ⊢
  unfold treeDel
  cases hc : aget t c with
  | none => exact ht
  | some m =>
    exact decodeTree_aset_isSome _ _ _ ht
      (decodeTable_adel_isSome _ _ (decodeTree_table_isSome t c m ht hc))

theorem treeGet_treeDel_self (t : CTree) (c k : String) (m : ColTable)
    (hc : aget t c = some m) (hnd : (m.map Prod.fst).Nodup) :
    treeGet (treeDel t c k) c k = none := by
  unfold treeDel treeGet
  rw [hc, aget_aset_self]
  simp [aget_adel_self m k hnd]

/-- C7: for a collection holding exactly the keys item1, item2, item3
(created by three Sets), List pages in ascending lexicographic key order
with the total unaffected by pagination: List(c,2,1) returns
item1 and item2 with total 3, List(c,2,2) returns item3 with total 3, and
List(c,0,1) returns all three items with total 3 because limit 0 clamps to
the maximum. -/
theorem spec_C7_list_pagination :
    ∃ f1 f2 f3 : FileStore,
      memStore.Set .empty false "col1" "item1" "1" = .ok (f1, .empty, none) ∧
      f1.Set .empty false "col1" "item2" "2" = .ok (f2, .empty, none) ∧
      f2.Set .empty false "col1" "item3" "3" = .ok (f3, .empty, none) ∧
      f3.ListOp "col1" 2 1 = .ok (.ok ([("item1", "1"), ("item2", "2")], 3)) ∧
      f3.ListOp "col1" 2 2 = .ok (.ok ([("item3", "3")], 3)) ∧
      f3.ListOp "col1" 0 1
        = .ok (.ok ([("item1", "1"), ("item2", "2"), ("item3", "3")], 3)) := by
  refine ⟨{ memStore with content := [("col1", [("item1", "1")])] },
    { memStore with content := [("col1", [("item1", "1"), ("item2", "2")])] },
    { memStore with content := [("col1", [("item1", "1"), ("item2", "2"), ("item3", "3")])] },
    ?_, ?_, ?_, ?_, ?_, ?_⟩ <;> rfl

/-- C10: the default collection name is substituted for an empty
collection name only in List, while Set and Get use the empty string as a
literal name; on a fresh in-memory store, Set("",k,v) followed by
List("",limit,page) fails with CollectionNotFound even though Get("",k)
returns v. -/
theorem spec_C10_empty_collection_name (k : String) (v : Raw)
    (limit page : Int) (fs fs2 : FileState) :
    ∃ f1 : FileStore,
      memStore.Set fs false "" k v = .ok (f1, fs, none) ∧
      f1.ListOp "" limit page = .ok (.error .collectionNotFound) ∧
      f1.Get fs2 "" k = .ok (f1, .ok (some v)) := by
  refine ⟨_, rfl, ?_, ?_⟩
  · show FileStore.ListOp _ "" limit page = _
    simp [FileStore.ListOp, memStore, NewFileStore, InMemoryDb, isFlagSet,
      treeSet, aget, aset, DefaultCollection]
  · show FileStore.Get _ fs2 "" k = _
    simp [FileStore.Get, memStore, NewFileStore, InMemoryDb, isFlagSet,
      FileStore.colExists, treeSet, treeGet, aget, aset]

/-- C2 (code bug): with the ManualFlush flag, Set indeed leaves the
backing file unchanged, but the explicit Flush is a no-op as well — the
condition in `Flush` only writes when `ManualFlush` is NOT set — so the
in-memory tree is never written to the file. -/
theorem spec_C2_manual_flush_never_writes :
    ∃ f1 f2 : FileStore,
      manualStore.inMemory = false ∧ manualStore.manualFlush = true ∧
      manualStore.Set .empty false "c" "k" "true" = .ok (f1, .empty, none) ∧
      f1.content = [("c", [("k", "true")])] ∧
      f1.Delete .empty false "c" "k" = .ok (f2, .empty, true, none) ∧
      f1.Flush .empty false = .ok (.empty, none) := by
  refine ⟨{ manualStore with content := [("c", [("k", "true")])] },
    { manualStore with content := [("c", [])] }, ?_, ?_, ?_, ?_, ?_, ?_⟩ <;> rfl

/-- C1 counterexample: on an existing one-key collection, List with
limit 2 and page 3 — an offset of 4, past the end — does not return a
shorter or empty page; the slice `keys[4:1]` is out of range and the call
panics. -/
theorem spec_C1_counterexample :
    c1store.colExists "c" = true ∧ c1store.ListOp "c" 2 3 = .panicked :=
  ⟨rfl, rfl⟩

/-- C5 counterexample: on a file-backed manual-flush store whose
collection `c` exists in memory but whose backing file is still empty,
Get on an absent key of `c` fails with the read error for an empty file
instead of succeeding with a null output. -/
theorem spec_C5_counterexample :
    ∃ f1 : FileStore,
      manualStore.Set .empty false "c" "a" "true" = .ok (f1, .empty, none) ∧
      f1.colExists "c" = true ∧
      treeGet f1.content "c" "b" = none ∧
      f1.Get .empty "c" "b" = .ok (f1, .error .readEmpty) := by
  refine ⟨{ manualStore with content := [("c", [("a", "true")])] }, ?_, ?_, ?_, ?_⟩ <;> rfl

/-- C8 counterexample: after an auto-flush Set whose file write fails, the
new value is in memory, but a subsequent Get reloads the backing file and
the stale file value wins, so the read observes the old value, not the new
one. -/
theorem spec_C8_counterexample :
    ∃ f1 f2 : FileStore,
      c8store.Set c8file true "c" "k" "2" = .ok (f1, c8file, some .ioWrite) ∧
      treeGet f1.content "c" "k" = some "2" ∧
      f1.Get c8file "c" "k" = .ok (f2, .ok (some "1")) := by
  refine ⟨{ c8store with content := [("c", [("k", "2")])] },
    { c8store with content := [("c", [("k", "1")])] }, ?_, ?_, ?_⟩ <;> rfl

/-- C9 counterexample: after Delete removes the last key of collection
`c`, the collection stays present, but List on the now-empty collection
with page 2 does not return an empty page without error — the slice
`keys[2:0]` is out of range and the call panics. -/
theorem spec_C9_counterexample :
    ∃ f2 : FileStore,
      c1store.Delete .empty false "c" "a" = .ok (f2, .empty, true, none) ∧
      f2.colExists "c" = true ∧
      f2.ListOp "c" 2 2 = .panicked := by
  refine ⟨{ c1store with content := [("c", [])] }, ?_, ?_, ?_⟩ <;> rfl

/-- C3 counterexample: engine B, sharing the backing file, writes
collection `c` with key `k`; a Get on engine A (same file, fresh memory)
returns CollectionNotFound even though the file holds the collection —
the collection check runs against A's in-memory tree before any reload. -/
theorem spec_C3_counterexample :
    ∃ f1 : FileStore,
      freshAuto.Set .empty false "c" "k" "true"
        = .ok (f1, .written [("c", [("k", "true")])], none) ∧
      treeGet [("c", [("k", "true")])] "c" "k" = some "true" ∧
      freshAuto.Get (.written [("c", [("k", "true")])]) "c" "k"
        = .ok (freshAuto, .error .collectionNotFound) := by
  refine ⟨{ freshAuto with content := [("c", [("k", "true")])] }, ?_, ?_, ?_⟩ <;> rfl

/-- C4 counterexample: on a file-backed auto-flush store, Set stores the
bytes verbatim and writes them to the file, but Get's reload re-serializes
them — `[1, 2]` comes back as `[1,2]`, so Set-then-Get does not yield
exactly the bytes that were set. -/
theorem spec_C4_counterexample :
    ∃ f1 f2 : FileStore,
      freshAuto.Set .empty false "c" "k" "[1, 2]"
        = .ok (f1, .written [("c", [("k", "[1, 2]")])], none) ∧
      f1.Get (.written [("c", [("k", "[1, 2]")])]) "c" "k"
        = .ok (f2, .ok (some "[1,2]")) ∧
      ("[1,2]" : Raw) ≠ "[1, 2]" := by
  refine ⟨{ freshAuto with content := [("c", [("k", "[1, 2]")])] },
    { freshAuto with content := [("c", [("k", "[1,2]")])] }, ?_, ?_, ?_⟩
  · rfl
  · rfl
  · intro h
    have := congrArg String.length h
    simp [String.length] at this

/-- C5 (amended): on an in-memory store, Get for a key absent from an
existing collection succeeds and sets the output to the nil raw message,
which serializes as JSON null, rather than returning an item-not-found
error; on a file-backed store the implicit reload intervenes and Get can
fail (or return a value the file holds) instead. -/
theorem spec_C5_absent_key_null (f : FileStore) (fs : FileState) (c k : String)
    (hmem : f.inMemory = true) (hex : f.colExists c = true)
    (habs : treeGet f.content c k = none) :
    f.Get fs c k = .ok (f, .ok none) := by
  simp [FileStore.Get, hex, hmem, habs]

theorem spec_C5_witness :
    c1store.Get .empty "c" "b" = .ok (c1store, .ok none) :=
  spec_C5_absent_key_null c1store .empty "c" "b" rfl rfl rfl

/-- C8 (amended): on a file-backed auto-flush store, Set mutates the
in-memory tree first and then writes the whole tree; when the write
fails, the error is surfaced, the backing file is unchanged and the
in-memory mutation is not rolled back — the new value remains in the
in-memory tree (a subsequent List, which does not reload, observes it,
whereas a subsequent Get reloads the file and the stale file value takes
precedence). -/
theorem spec_C8_failed_write_keeps_memory (f : FileStore) (fs : FileState)
    (c k : String) (v : Raw)
    (hfile : f.inMemory = false) (hauto : f.manualFlush = false)
    (hv : treeValid (treeSet f.content c k v)) :
    f.Set fs true c k v
      = .ok ({ f with content := treeSet f.content c k v }, fs, some .ioWrite) ∧
    treeGet (treeSet f.content c k v) c k = some v := by
  constructor
  · simp [FileStore.Set, hfile, hauto, FileStore.flushToFile, hv]
  · exact treeGet_treeSet_self f.content c k v

theorem spec_C8_witness :
    c8store.Set c8file true "c" "k" "2"
      = .ok ({ c8store with content := treeSet c8store.content "c" "k" "2" },
          c8file, some .ioWrite) ∧
    treeGet (treeSet c8store.content "c" "k" "2") "c" "k" = some "2" :=
  spec_C8_failed_write_keeps_memory c8store c8file "c" "k" "2" rfl rfl (by decide)

/-- C6: Delete fails with CollectionNotFound when the collection is
absent; when it exists (and the write-through flush, if any, succeeds) it
returns true exactly when the key was present — removing it — and returns
false with no error when the key is absent or already deleted. -/
theorem spec_C6_delete_semantics (f : FileStore) (fs : FileState) (c k : String)
    (hwf : WFTree f.content) (hv : treeValid f.content) :
    (f.colExists c = false →
      f.Delete fs false c k = .ok (f, fs, false, some .collectionNotFound)) ∧
    (f.colExists c = true →
      ∃ f2 fs2, f.Delete fs false c k
          = .ok (f2, fs2, (treeGet f.content c k).isSome, none) ∧
        treeGet f2.content c k = none) := by
  constructor
  · intro habs
    simp [FileStore.Delete, habs]
  · intro hex
    have hex2 : (aget f.content c).isSome = true := hex
    obtain ⟨m, hm⟩ := Option.isSome_iff_exists.mp hex2
    have hmnd : (m.map Prod.fst).Nodup := hwf.2 (c, m) (aget_mem _ _ _ hm)
    have hvd : treeValid (treeDel f.content c k) = true :=
      treeValid_treeDel f.content c k hv
    by_cases hp : (treeGet f.content c k).isSome = true
    · by_cases hb : (!f.inMemory && !f.manualFlush) = true
      · refine ⟨{ f with content := treeDel f.content c k },
          .written (treeDel f.content c k), ?_, ?_⟩
        · simp [FileStore.Delete, FileStore.colExists, hex2, hp, hb,
            FileStore.flushToFile, hvd]
        · exact treeGet_treeDel_self f.content c k m hm hmnd
      · refine ⟨{ f with content := treeDel f.content c k }, fs, ?_, ?_⟩
        · simp [FileStore.Delete, FileStore.colExists, hex2, hp, hb]
        · exact treeGet_treeDel_self f.content c k m hm hmnd
    · have hpn : treeGet f.content c k = none := by
        cases hg : treeGet f.content c k with
        | none => rfl
        | some w => rw [hg] at hp; simp at hp
      by_cases hb : (!f.inMemory && !f.manualFlush) = true
      · refine ⟨f, .written f.content, ?_, hpn⟩
        simp [FileStore.Delete, FileStore.colExists, hex2, hp,
          hpn, hb, FileStore.flushToFile, hv]
      · refine ⟨f, fs, ?_, hpn⟩
        simp [FileStore.Delete, FileStore.colExists, hex2, hp, hpn, hb]

theorem spec_C6_witness :
    (c1store.colExists "x" = false →
      c1store.Delete .empty false "x" "a"
        = .ok (c1store, .empty, false, some .collectionNotFound)) ∧
    (c1store.colExists "c" = true →
      ∃ f2 fs2, c1store.Delete .empty false "c" "a"
          = .ok (f2, fs2, (treeGet c1store.content "c" "a").isSome, none) ∧
        treeGet f2.content "c" "a" = none) :=
  ⟨(spec_C6_delete_semantics c1store .empty "x" "a" (by decide) (by decide)).1,
   (spec_C6_delete_semantics c1store .empty "c" "a" (by decide) (by decide)).2⟩

theorem clampLimit_pos (limit : Int) (h : 0 ≤ limit) : 1 ≤ clampLimit limit := by
  unfold clampLimit MaxListItems
  split
  · omega
  · rename_i h2
    simp only [Bool.or_eq_true, decide_eq_true_eq, not_or] at h2
    omega

theorem listop_empty_table (f : FileStore) (c : String) (limit page : Int)
    (hc : c ≠ "") (hm : aget f.content c = some [])
    (hlim : 1 ≤ clampLimit limit) (hpage : clampPage page = 1) :
    f.ListOp c limit page = .ok (.ok ([], 0)) := by
  unfold FileStore.ListOp
  rw [if_neg hc]
  simp only [hm, sortStrings, List.map_nil, List.length_nil, Nat.cast_zero, hpage]
  rw [if_pos (by omega : (1 - 1 : Int) * clampLimit limit + clampLimit limit > 0)]
  rw [if_pos (by omega : (0 : Int) ≤ (1 - 1) * clampLimit limit ∧
    (1 - 1) * clampLimit limit ≤ 0 ∧ (0 : Int) ≤ 0)]
  simp

/-- C9 (amended): for every non-empty collection name (List resolves an
empty name to the default collection first), Get, List, and Delete on a
collection with zero prior Set calls fail with CollectionNotFound in every
configuration; and after Delete removes the last key of a collection, the
collection stays present, so List on it with page 1 (and a non-negative
limit) returns an empty page with total 0 and no error — with page ≥ 2
the empty collection makes the page slice panic instead. -/
theorem spec_C9_absent_vs_empty (f : FileStore) (fs : FileState)
    (c k : String) (v : Raw) (limit page : Int) :
    (c ≠ "" → f.colExists c = false →
      f.Get fs c k = .ok (f, .error .collectionNotFound) ∧
      f.ListOp c limit page = .ok (.error .collectionNotFound) ∧
      f.Delete fs false c k = .ok (f, fs, false, some .collectionNotFound)) ∧
    (c ≠ "" → aget f.content c = some [(k, v)] → treeValid f.content →
      0 ≤ limit →
      ∃ f2 fs2, f.Delete fs false c k = .ok (f2, fs2, true, none) ∧
        f2.colExists c = true ∧
        f2.ListOp c limit 1 = .ok (.ok ([], 0))) := by
  constructor
  · intro hc habs
    have hnone : aget f.content c = none := by
      cases hg : aget f.content c with
      | none => rfl
      | some m =>
        unfold FileStore.colExists at habs
        rw [hg] at habs
        simp at habs
    refine ⟨?_, ?_, ?_⟩
    · simp [FileStore.Get, habs]
    · unfold FileStore.ListOp
      rw [if_neg hc]
      simp [hnone]
    · simp [FileStore.Delete, habs]
  · intro hc hm hv hlim
    have hpres : (treeGet f.content c k).isSome = true := by
      simp [treeGet, hm, aget]
    have hdel : treeDel f.content c k = aset f.content c [] := by
      unfold treeDel
      rw [hm]
      simp [adel]
    have hvd : treeValid (treeDel f.content c k) = true :=
      treeValid_treeDel f.content c k hv
    have hex2 : (aget f.content c).isSome = true := by simp [hm]
    have hag2 : aget (aset f.content c []) c = some [] := aget_aset_self _ _ _
    have hlist : ({ f with content := aset f.content c [] } : FileStore).ListOp
        c limit 1 = .ok (.ok ([], 0)) :=
      listop_empty_table _ c limit 1 hc hag2 (clampLimit_pos limit hlim) rfl
    by_cases hb : (!f.inMemory && !f.manualFlush) = true
    · refine ⟨{ f with content := aset f.content c [] },
        .written (aset f.content c []), ?_, ?_, hlist⟩
      · have hvd2 : treeValid (aset f.content c []) = true := hdel ▸ hvd
        simp [FileStore.Delete, FileStore.colExists, hex2, hpres, hdel, hb,
          FileStore.flushToFile, hvd2]
      · simp [FileStore.colExists, hag2]
    · refine ⟨{ f with content := aset f.content c [] }, fs, ?_, ?_, hlist⟩
      · simp [FileStore.Delete, FileStore.colExists, hex2, hpres, hdel, hb]
      · simp [FileStore.colExists, hag2]

theorem spec_C9_witness :
    ("c" ≠ "" → memStore.colExists "c" = false →
      memStore.Get .empty "c" "a" = .ok (memStore, .error .collectionNotFound) ∧
      memStore.ListOp "c" 5 1 = .ok (.error .collectionNotFound) ∧
      memStore.Delete .empty false "c" "a"
        = .ok (memStore, .empty, false, some .collectionNotFound)) ∧
    (∃ f2 fs2, c1store.Delete .empty false "c" "a" = .ok (f2, fs2, true, none) ∧
      f2.colExists "c" = true ∧
      f2.ListOp "c" 5 1 = .ok (.ok ([], 0))) :=
  ⟨(spec_C9_absent_vs_empty memStore .empty "c" "a" "true" 5 1).1,
   (spec_C9_absent_vs_empty c1store .empty "c" "a" "true" 5 1).2
     (by decide) rfl (by decide) (by decide)⟩

theorem clampPage_pos (page : Int) : 1 ≤ clampPage page := by
  unfold clampPage
  split <;> omega

/-- C1 (amended): for every existing collection (named non-empty), List
returns normally with a page and the total count when the limit is
non-negative and the offset (clampedPage−1)×clampedLimit does not exceed
the collection size; limit = 0 or limit > 20 is clamped to 20 and
page < 1 is clamped to 1, and an offset reaching up to the end yields a
shorter or empty page. A negative limit is NOT clamped, and a negative
limit or an offset strictly past the end makes the page slice panic
instead of returning an error. -/
theorem spec_C1_list_clamped_total (f : FileStore) (c : String) (m : ColTable)
    (limit page : Int)
    (hc : aget f.content c = some m) (hcne : c ≠ "")
    (hlim : 0 ≤ limit)
    (hoff : (clampPage page - 1) * clampLimit limit ≤ (m.length : Int)) :
    ∃ items : List (String × Raw),
      f.ListOp c limit page = .ok (.ok (items, (m.length : Int))) ∧
      (items.length : Int)
        = min (clampLimit limit)
            ((m.length : Int) - (clampPage page - 1) * clampLimit limit) := by
  have hlim1 : 1 ≤ clampLimit limit := clampLimit_pos limit hlim
  have hp1 : 1 ≤ clampPage page := clampPage_pos page
  have hoff0 : 0 ≤ (clampPage page - 1) * clampLimit limit :=
    mul_nonneg (by omega) (by omega)
  have hkl : (sortStrings (m.map Prod.fst)).length = m.length := by
    rw [length_sortStrings, List.length_map]
  unfold FileStore.ListOp
  rw [if_neg hcne]
  simp only [hc, hkl]
  by_cases hcase : (clampPage page - 1) * clampLimit limit + clampLimit limit
      > (m.length : Int)
  · rw [if_pos hcase, if_pos (by constructor; omega; constructor; omega; omega)]
    refine ⟨_, rfl, ?_⟩
    simp only [List.length_map, List.length_take, List.length_drop, hkl]
    omega
  · rw [if_neg hcase, if_pos (by constructor; omega; constructor; omega; omega)]
    refine ⟨_, rfl, ?_⟩
    simp only [List.length_map, List.length_take, List.length_drop, hkl]
    omega

theorem spec_C1_witness :
    ∃ items : List (String × Raw),
      c1store.ListOp "c" 2 1 = .ok (.ok (items, (1 : Int))) ∧
      (items.length : Int)
        = min (clampLimit 2) ((1 : Int) - (clampPage 1 - 1) * clampLimit 2) :=
  spec_C1_list_clamped_total c1store "c" [("a", "true")] 2 1 rfl
    (by decide) (by decide) (by decide)

theorem decodeTree_mem (t : CTree) (td : List (String × List (String × Json)))
    (h : decodeTree t = some td) (p : String × List (String × Json))
    (hp : p ∈ td) : ∃ mq, (p.1, mq) ∈ t ∧ decodeTable mq = some p.2 := by
  induction t generalizing td with
  | nil =>
    simp only [decodeTree, Option.some.injEq] at h
    subst h
    simp at hp
  | cons q rest ih =>
    obtain ⟨c1, m1⟩ := q
    simp only [decodeTree] at h
    cases hq : decodeTable m1 with
    | none => rw [hq] at h; simp at h
    | some dm1 =>
      rw [hq] at h
      cases hr : decodeTree rest with
      | none => rw [hr] at h; simp at h
      | some dr =>
        rw [hr] at h
        simp only [Option.some.injEq] at h
        subst h
        rcases List.mem_cons.mp hp with hp | hp
        · subst hp
          exact ⟨m1, List.mem_cons_self _ _, hq⟩
        · obtain ⟨mq, hmem, hdq⟩ := ih dr hr hp
          exact ⟨mq, List.mem_cons_of_mem _ hmem, hdq⟩

theorem aget_treeSet_self_isSome (t : CTree) (c k : String) (v : Raw) :
    (aget (treeSet t c k v) c).isSome = true := by
  cases hc : aget t c with
  | none =>
    rw [treeSet_eq_none t c k v hc, aget_aset_self]
    rfl
  | some m =>
    rw [treeSet_eq_some t c k v m hc, aget_aset_self]
    rfl

theorem get_reload_of (f : FileStore) (t : CTree) (c k : String)
    (m : ColTable) (r : Raw)
    (hfile : f.inMemory = false)
    (hndt : (t.map Prod.fst).Nodup) (hmnd : (m.map Prod.fst).Nodup)
    (hvt : treeValid t)
    (hcols : ∀ p ∈ t, p.2 ≠ [] → (aget f.content p.1).isSome)
    (hex : f.colExists c = true)
    (hm : aget t c = some m) (hk : aget m k = some r) :
    ∃ mem2, f.Get (.written t) c k
        = .ok ({ f with content := mem2 }, .ok (canonJson r)) ∧
      treeGet mem2 c k = canonJson r := by
  have hvt2 : (decodeTree t).isSome = true := hvt
  obtain ⟨td, htd⟩ := Option.isSome_iff_exists.mp hvt2
  obtain ⟨dm, hdm, hdtc⟩ := decodeTree_aget t td c m htd hm
  obtain ⟨j, hj, hjk⟩ := decodeTable_aget m dm k r hdm hk
  have hndtd : (td.map Prod.fst).Nodup := by
    rw [decodeTree_keys t td htd]; exact hndt
  have hnddm : (dm.map Prod.fst).Nodup := by
    rw [decodeTable_keys m dm hdm]; exact hmnd
  have hcols2 : ∀ p ∈ td, p.2 ≠ [] → (aget f.content p.1).isSome := by
    intro p hp hne
    obtain ⟨mq, hmem, hdq⟩ := decodeTree_mem t td htd p hp
    refine hcols (p.1, mq) hmem ?_
    intro he
    subst he
    simp only [decodeTable, Option.some.injEq] at hdq
    exact hne hdq.symm
  obtain ⟨mem2, hmerge, hget⟩ :=
    mergeTree_get_of_aget td f.content c k dm j hndtd hcols2 hdtc hnddm hjk
  have hcr : canonJson r = some (serializeJson j) := by
    unfold canonJson
    rw [hj]
    rfl
  refine ⟨mem2, ?_, by rw [hget, hcr]⟩
  unfold FileStore.Get
  rw [hex]
  simp only [Bool.not_true, Bool.false_eq_true, if_false, hfile,
    FileStore.readFile, htd, hmerge]
  rw [hget, hcr]

/-- C3 (amended): on a file-backed store, Get reloads the backing file
before reading the value, but only after the collection-existence check
has passed against the in-memory tree; the reload merges the decoded file
entries over memory, so for a collection this instance already knows
(and a well-formed file whose non-empty collections are all known in
memory), the value returned is the file's current (re-serialized) value
for the key — while a collection present only in the file yields
CollectionNotFound, and a file collection unknown to this instance makes
the merge panic. -/
theorem spec_C3_get_reflects_file (f : FileStore) (t : CTree) (c k : String)
    (m : ColTable) (r : Raw)
    (hfile : f.inMemory = false) (hwt : WFTree t) (hvt : treeValid t)
    (hcols : ∀ p ∈ t, p.2 ≠ [] → (aget f.content p.1).isSome)
    (hex : f.colExists c = true)
    (hm : aget t c = some m) (hk : aget m k = some r) :
    ∃ mem2, f.Get (.written t) c k
        = .ok ({ f with content := mem2 }, .ok (canonJson r)) ∧
      treeGet mem2 c k = canonJson r :=
  get_reload_of f t c k m r hfile hwt.1
    (hwt.2 (c, m) (aget_mem _ _ _ hm)) hvt hcols hex hm hk

theorem spec_C3_witness :
    ∃ mem2, c8store.Get (.written [("c", [("k", "2")])]) "c" "k"
        = .ok ({ c8store with content := mem2 }, .ok (canonJson "2")) ∧
      treeGet mem2 "c" "k" = canonJson "2" :=
  spec_C3_get_reflects_file c8store [("c", [("k", "2")])] "c" "k"
    [("k", "2")] "2" rfl (by decide) (by decide)
    (by decide) rfl rfl rfl

/-- C4 (amended): Set(c,k,v) immediately followed by Get(c,k) yields
exactly the bytes v on an in-memory store; on a file-backed auto-flush
store (with well-formed, valid contents) Get's reload intervenes and the
value returned is the canonical re-serialization of v, which equals v only
when v is already in canonical form; on a file-backed manual-flush store
with an unflushed (empty) backing file, Get fails instead. -/
theorem spec_C4_set_then_get (f : FileStore) (fs : FileState) (c k : String)
    (v : Raw) :
    (f.inMemory = true →
      ∃ f1, f.Set fs false c k v = .ok (f1, fs, none) ∧
        f1.Get fs c k = .ok (f1, .ok (some v))) ∧
    (f.inMemory = false → f.manualFlush = false → WFTree f.content →
      treeValid f.content → validJson v →
      ∃ f1 f2 : FileStore,
        f.Set fs false c k v = .ok (f1, .written f1.content, none) ∧
        f1.Get (.written f1.content) c k = .ok (f2, .ok (canonJson v))) := by
  constructor
  · intro hmem
    refine ⟨{ f with content := treeSet f.content c k v }, ?_, ?_⟩
    · simp [FileStore.Set, hmem]
    · simp [FileStore.Get, FileStore.colExists, aget_treeSet_self_isSome,
        hmem, treeGet_treeSet_self]
  · intro hfile hauto hwf hv hvj
    have hv1 : treeValid (treeSet f.content c k v) :=
      treeValid_treeSet _ _ _ _ hv hvj
    have hwf1 : WFTree (treeSet f.content c k v) :=
      WFTree_treeSet _ _ _ _ hwf
    have hsplit : ∃ m1, aget (treeSet f.content c k v) c = some m1 ∧
        aget m1 k = some v := by
      have h2 := treeGet_treeSet_self f.content c k v
      unfold treeGet at h2
      cases hg : aget (treeSet f.content c k v) c with
      | none => rw [hg] at h2; simp at h2
      | some m1 =>
        rw [hg] at h2
        simp only [Option.some_bind] at h2
        exact ⟨m1, rfl, h2⟩
    obtain ⟨m1, hm1, hk1⟩ := hsplit
    obtain ⟨mem2, hgeteq, hget⟩ := get_reload_of
      { f with content := treeSet f.content c k v }
      (treeSet f.content c k v) c k m1 v hfile hwf1.1
      (hwf1.2 (c, m1) (aget_mem _ _ _ hm1)) hv1
      (fun p hp _ => aget_isSome_of_mem_fst _ _
        (List.mem_map_of_mem Prod.fst hp))
      (by simp [FileStore.colExists, hm1]) hm1 hk1
    refine ⟨{ f with content := treeSet f.content c k v },
      { f with content := mem2 }, ?_, hgeteq⟩
    simp [FileStore.Set, hfile, hauto, FileStore.flushToFile, hv1]

theorem spec_C4_witness :
    (∃ f1, memStore.Set .empty false "c" "k" "\"x\""
        = .ok (f1, .empty, none) ∧
      f1.Get .empty "c" "k" = .ok (f1, .ok (some "\"x\""))) ∧
    (∃ f1 f2 : FileStore,
      freshAuto.Set .empty false "c" "k" "[1, 2]"
        = .ok (f1, .written f1.content, none) ∧
      f1.Get (.written f1.content) "c" "k" = .ok (f2, .ok (canonJson "[1, 2]"))) :=
  ⟨(spec_C4_set_then_get memStore .empty "c" "k" "\"x\"").1 rfl,
   (spec_C4_set_then_get freshAuto .empty "c" "k" "[1, 2]").2 rfl rfl
     (by decide) (by decide) (by decide)⟩
